import Mathlib

/-!
Verification of the call-graph extraction engine of `archivo.py`.

The definitions below are a shallow embedding of the Python source:

* `parse_julia_content` embeds the function of the same name
  (`src/archivo.py`, lines 22-83).  Text is modelled as `List Char`,
  Python's `re` patterns are modelled by dedicated matchers that
  reproduce the leftmost-search backtracking semantics of each concrete
  pattern, and the routine table is an insertion-ordered association
  list with Python-`dict` update semantics.  A `KeyError` raised by
  `functions[current_func]` is modelled by returning `none`.
* `findOriginFile` embeds the origin-file lookup of
  `create_class_diagram` (line 100) and `buildEdges` embeds its
  edge-emission loop (lines 119-129).
* `combinedContent` embeds the concatenation performed by `main`
  (line 136).
-/

/-- ASCII version of the whitespace class `\s` used by Python `re`. -/
def isSpaceChar (c : Char) : Bool :=
  c = ' ' || c = '\t' || c = '\n' || c = '\r' || c = '\x0b' || c = '\x0c'

/-- ASCII version of the word class `\w` used by Python `re`. -/
def isWordChar (c : Char) : Bool :=
  c.isAlphanum || c = '_'

/-- Python `str.strip()`: remove whitespace from both ends. -/
def stripChars (cs : List Char) : List Char :=
  ((cs.dropWhile isSpaceChar).reverse.dropWhile isSpaceChar).reverse

/-- Auxiliary for `splitLines`; mirrors Python `str.splitlines()` for
texts whose only line terminator is `'\n'` (no line is produced after a
terminating final newline). -/
def splitLinesAux : List Char → List Char → List (List Char)
  | [], acc => [acc.reverse]
  | '\n' :: [], acc => [acc.reverse]
  | '\n' :: c :: rest, acc => acc.reverse :: splitLinesAux (c :: rest) []
  | c :: rest, acc => splitLinesAux rest (c :: acc)

/-- Python `content.splitlines()` (line 47 of the source). -/
def splitLines (cs : List Char) : List (List Char) :=
  match cs with
  | [] => []
  | c :: rest => splitLinesAux (c :: rest) []

/-- Auxiliary for `splitParams`; mirrors Python `str.split(',')`. -/
def splitCommaAux : List Char → List Char → List (List Char)
  | [], acc => [acc.reverse]
  | ',' :: rest, acc => acc.reverse :: splitCommaAux rest []
  | c :: rest, acc => splitCommaAux rest (c :: acc)

/-- Parameter-list handling of the pre-pass (lines 35-36):
`match.group(2).split(',')`, each entry stripped, empty entries dropped. -/
def splitParams (cs : List Char) : List String :=
  ((splitCommaAux cs []).map stripChars).filter (fun p => ¬ p.isEmpty)
    |>.map List.asString

/-- Strip a literal off the front of the text, or fail. -/
def dropPrefixLit : List Char → List Char → Option (List Char)
  | [], cs => some cs
  | _, [] => none
  | p :: ps, c :: cs => if c = p then dropPrefixLit ps cs else none

/-- Anchored match of `function\s+(\w+)\s*\(([^)]*)\)` (the
`function_pattern` of line 24) at the head of the text.  Returns the
two groups and the text following the match.  The pattern is
backtracking-free because `\s`, `\w`, `(` and the complement class
`[^)]` are pairwise disjoint at every boundary. -/
def matchDefAt (cs : List Char) : Option (String × String × List Char) :=
  match dropPrefixLit "function".toList cs with
  | none => none
  | some cs1 =>
    let sp := cs1.takeWhile isSpaceChar
    let cs2 := cs1.dropWhile isSpaceChar
    if sp.isEmpty then none else
    let nm := cs2.takeWhile isWordChar
    let cs3 := cs2.dropWhile isWordChar
    if nm.isEmpty then none else
    match cs3.dropWhile isSpaceChar with
    | '(' :: cs5 =>
      let ps := cs5.takeWhile (fun c => ¬ c = ')')
      match cs5.dropWhile (fun c => ¬ c = ')') with
      | ')' :: rest => some (nm.asString, ps.asString, rest)
      | _ => none
    | _ => none

/-- Fuelled scan for `function_pattern.finditer` (line 33): repeatedly
find the leftmost match, then continue after it.  Every step consumes
at least one character, so fuel equal to the text length suffices. -/
def finditerGo : Nat → List Char → List (String × String)
  | 0, _ => []
  | _ + 1, [] => []
  | fuel + 1, c :: cs =>
    match matchDefAt (c :: cs) with
    | some (n, p, rest) => (n, p) :: finditerGo fuel rest
    | none => finditerGo fuel cs

/-- All matches of `function_pattern` over the text, in order. -/
def finditerDef (cs : List Char) : List (String × String) :=
  finditerGo cs.length cs

/-- Match of `(\w+)\(` (the `call_pattern` of line 26) anchored at the
head of the text, returning group 1. -/
def callAt (cs : List Char) : Option String :=
  let nm := cs.takeWhile isWordChar
  if nm.isEmpty then none else
  match cs.dropWhile isWordChar with
  | '(' :: _ => some nm.asString
  | _ => none

/-- `call_pattern.search(line)` (line 77): first match, group 1. -/
def searchCall : List Char → Option String
  | [] => none
  | c :: cs =>
    match callAt (c :: cs) with
    | some s => some s
    | none => searchCall cs

/-- Match of `(\w+)\s*::?\s*\w*` (the `variable_pattern` of line 25)
anchored at the head of the text, returning group 1.  The pattern
requires at least one colon after the identifier; the optional second
colon and the trailing `\s*\w*` always succeed. -/
def varAt (cs : List Char) : Option String :=
  let nm := cs.takeWhile isWordChar
  if nm.isEmpty then none else
  match (cs.dropWhile isWordChar).dropWhile isSpaceChar with
  | ':' :: _ => some nm.asString
  | _ => none

/-- `variable_pattern.search(line)` (line 71): first match, group 1. -/
def searchVar : List Char → Option String
  | [] => none
  | c :: cs =>
    match varAt (c :: cs) with
    | some s => some s
    | none => searchVar cs

/-- Match of `gdata\.(\w+)\s*=\s*(.+)` (the `gdata_pattern` of
line 27) anchored at the head of the text, returning group 1.  On a
newline-free line, `\s*(.+)` succeeds exactly when at least one
character follows the `=`. -/
def gdataAt (cs : List Char) : Option String :=
  match dropPrefixLit "gdata.".toList cs with
  | none => none
  | some cs1 =>
    let nm := cs1.takeWhile isWordChar
    if nm.isEmpty then none else
    match (cs1.dropWhile isWordChar).dropWhile isSpaceChar with
    | '=' :: cs2 => if cs2.isEmpty then none else some nm.asString
    | _ => none

/-- `gdata_pattern.search(line)` (line 65): first match, group 1. -/
def searchGdata : List Char → Option String
  | [] => none
  | c :: cs =>
    match gdataAt (c :: cs) with
    | some s => some s
    | none => searchGdata cs

/-- One routine record of the table built by `parse_julia_content`
(lines 37-43): the Python dict with keys `inputs`, `outputs`,
`variables`, `calls`, `gdata`. -/
structure FuncInfo where
  inputs : List String
  outputs : List String
  /-- the `"variables"` entry of the Python record -/
  vars : List String
  calls : List String
  gdata : List String
deriving DecidableEq, Repr

/-- The fresh record created for a matched definition (lines 37-43). -/
def emptyInfo (params : List String) : FuncInfo :=
  ⟨params, [], [], [], []⟩

/-- The routine table: a Python `dict` modelled as an insertion-ordered
association list. -/
abbrev Dict : Type := List (String × FuncInfo)

/-- `functions[name] = value`: update in place if the key exists,
append otherwise (Python `dict` assignment). -/
def dictSet (k : String) (v : FuncInfo) : Dict → Dict
  | [] => [(k, v)]
  | (k2, v2) :: rest =>
    if k2 = k then (k, v) :: rest else (k2, v2) :: dictSet k v rest

/-- `functions.get(name)`: first binding of the key, if any. -/
def dictGet? (k : String) : Dict → Option FuncInfo
  | [] => none
  | (k2, v2) :: rest => if k2 = k then some v2 else dictGet? k rest

/-- `name in functions`: key membership. -/
def dictMem (k : String) (d : Dict) : Bool :=
  (dictGet? k d).isSome

/-- In-place mutation `functions[name] = f(functions[name])`; `none`
models the `KeyError` Python raises when the key is absent. -/
def dictModify (k : String) (f : FuncInfo → FuncInfo) : Dict → Option Dict
  | [] => none
  | (k2, v2) :: rest =>
    if k2 = k then some ((k2, f v2) :: rest)
    else (dictModify k f rest).map (fun d2 => (k2, v2) :: d2)

/-- The key sequence of the table. -/
def keysOf (d : Dict) : List String :=
  d.map Prod.fst

/-- One iteration of the definition pre-pass loop (lines 33-44):
install a fresh record under the matched name and move the
current-routine cursor onto it. -/
def prePassStep (st : Dict × Option String) (m : String × String) :
    Dict × Option String :=
  (dictSet m.1 (emptyInfo (splitParams m.2.toList)) st.1, some m.1)

/-- The whole definition pre-pass (lines 29-44). -/
def prePassFold (ms : List (String × String)) : Dict × Option String :=
  ms.foldl prePassStep ([], none)

/-- `functions[cur]["outputs"].append(s)` (line 62). -/
def addOutput (s : String) (fi : FuncInfo) : FuncInfo :=
  { fi with outputs := fi.outputs ++ [s] }

/-- `functions[cur]["gdata"].append(s)` (line 68). -/
def addGdataField (s : String) (fi : FuncInfo) : FuncInfo :=
  { fi with gdata := fi.gdata ++ [s] }

/-- `functions[cur]["variables"].append(s)` (line 74). -/
def addVariable (s : String) (fi : FuncInfo) : FuncInfo :=
  { fi with vars := fi.vars ++ [s] }

/-- `functions[cur]["calls"].append(s)` (line 81). -/
def addCall (s : String) (fi : FuncInfo) : FuncInfo :=
  { fi with calls := fi.calls ++ [s] }

/-- Cursor update of the line scan (lines 53-56): on a line starting
with `function`, re-anchor the cursor at the matched name when
`function_pattern.match` succeeds. -/
def updateCursor (line : List Char) (cur : Option String) : Option String :=
  if "function".toList.isPrefixOf line then
    match matchDefAt line with
    | some (n, _, _) => some n
    | none => cur
  else cur

/-- Return detection (lines 59-62): on a line starting with `return`,
append the stripped remainder of the line to the current routine's
outputs. -/
def retStep (line : List Char) (cur : Option String) (d : Dict) : Option Dict :=
  if "return".toList.isPrefixOf line then
    match cur with
    | some n => dictModify n (addOutput (stripChars (line.drop 6)).asString) d
    | none => some d
  else some d

/-- Global-data detection (lines 65-68). -/
def gdataStep (line : List Char) (cur : Option String) (d : Dict) : Option Dict :=
  match searchGdata line, cur with
  | some g, some n => dictModify n (addGdataField g) d
  | _, _ => some d

/-- Variable detection (lines 71-74). -/
def varStep (line : List Char) (cur : Option String) (d : Dict) : Option Dict :=
  match searchVar line, cur with
  | some v, some n => dictModify n (addVariable v) d
  | _, _ => some d

/-- Call detection (lines 77-81): the first call candidate of the line
is recorded when it is a key of the table and differs from the current
routine. -/
def callStep (line : List Char) (cur : Option String) (d : Dict) : Option Dict :=
  match searchCall line, cur with
  | some c, some n =>
    if dictMem c d && c != n then dictModify n (addCall c) d else some d
  | _, _ => some d

/-- One iteration of the line-scan loop (lines 49-81). -/
def scanLine (d : Dict) (cur : Option String) (rawLine : List Char) :
    Option (Dict × Option String) :=
  let line := stripChars rawLine
  let cur2 := updateCursor line cur
  (retStep line cur2 d).bind fun d1 =>
  (gdataStep line cur2 d1).bind fun d2 =>
  (varStep line cur2 d2).bind fun d3 =>
  (callStep line cur2 d3).map fun d4 => (d4, cur2)

/-- The whole line-scan loop; a `none` from any line (a `KeyError`)
aborts the whole parse. -/
def scanLines : Dict → Option String → List (List Char) → Option Dict
  | d, _, [] => some d
  | d, cur, l :: ls => (scanLine d cur l).bind fun st => scanLines st.1 st.2 ls

/-- `parse_julia_content` (lines 22-83): the definition pre-pass
followed by the line scan; `none` models an uncaught `KeyError`. -/
def parse_julia_content (content : String) : Option Dict :=
  scanLines (prePassFold (finditerDef content.toList)).1
    (prePassFold (finditerDef content.toList)).2
    (splitLines content.toList)

/-- Substring test, Python `needle in hay`. -/
def isSubstrOf (needle : List Char) : List Char → Bool
  | [] => needle.isEmpty
  | c :: t => needle.isPrefixOf (c :: t) || isSubstrOf needle t

/-- Origin-file lookup of `create_class_diagram` (line 100): the first
file, in enumeration order, whose raw content contains the routine
name as a substring. -/
def findOriginFile (funcName : String) (filesData : List (String × String)) :
    Option String :=
  (filesData.find? (fun fd => isSubstrOf funcName.toList fd.2.toList)).map Prod.fst

/-- Edge emission guard of `create_class_diagram` (lines 126-129): an
edge is emitted only if not already present. -/
def addEdge (es : List (String × String)) (e : String × String) :
    List (String × String) :=
  if e ∈ es then es else es ++ [e]

/-- The edge-emission loop of `create_class_diagram` (lines 119-129):
the sequence of deduplicated `(caller, callee)` edges handed to the
renderer. -/
def buildEdges (fns : Dict) : List (String × String) :=
  fns.foldl (fun es nf => nf.2.calls.foldl (fun es2 c => addEdge es2 (nf.1, c)) es) []

/-- The corpus concatenation of `main` (line 136):
`"\n".join(contents)`. -/
def combinedContent (filesData : List (String × String)) : String :=
  String.intercalate "\n" (filesData.map Prod.snd)

/-! ### Concrete corpus texts used by the claims -/

/-- The scenario input file `a.jl` of the specification. -/
def contentA : String :=
  "function f(x)\n  y = g(x)\n  return y\nend\nfunction g(z)\n  return z\nend"

/-- A body line invoking two known routines, `g(h(x))`. -/
def contentNested : String :=
  "function f(x)\n  g(h(x))\nend\nfunction g(a)\nend\nfunction h(a)\nend"

/-- A body invoking one known routine and one unknown routine. -/
def contentUnknownCall : String :=
  "function f(x)\ng(x)\nunknown(x)\nend\nfunction g(z)\nend"

/-- A body writing the same global-data field twice. -/
def contentGdataTwice : String :=
  "function f(x)\ngdata.counter = 1\ngdata.counter = 2\nend"

/-- Two definitions sharing the name `helper`, with different
parameter lists. -/
def contentHelperTwice : String :=
  "function helper(a)\nend\nfunction helper(b, c)\nend"

/-- Corpus of two files: a first file with no definition, then a file
with stray lines above its definitions. -/
def filesStray : List (String × String) :=
  [("a.jl", "# nota"),
   ("b.jl", "return 42\nfunction f(x)\nend\nfunction g(z)\nend")]

/-- Corpus of two files where the first merely mentions `helper` and
only the second defines it. -/
def filesHelper : List (String × String) :=
  [("b.jl", "x = helper(1)"), ("a.jl", "function helper(a)\nend")]

/-- An unbalanced definition whose parameter text swallows the next
definition line, so the pre-pass records only `f` while the line scan
re-anchors the cursor on `h`. -/
def contentUnbalanced : String :=
  "function f(g\nfunction h(x)\nreturn 5"

/-! ### Claim theorems -/

/-- C1: for the file `a.jl` containing the two-routine scenario text,
extraction yields exactly two routines with `f.inputs = ["x"]`,
`f.calls = ["g"]`, `"y"` among `f.outputs`, `g.inputs = ["z"]`,
`g.calls = []`, and the projected edge sequence is exactly
`{(f, g)}`. -/
theorem C1_scenario_a_jl :
    parse_julia_content contentA =
      some [("f", ⟨["x"], ["y"], [], ["g"], []⟩),
            ("g", ⟨["z"], ["z"], [], [], []⟩)] ∧
    buildEdges [("f", ⟨["x"], ["y"], [], ["g"], []⟩),
                ("g", ⟨["z"], ["z"], [], [], []⟩)] = [("f", "g")] := by
  constructor <;> rfl

/-- C10: the claim says `parse_julia_content` is total, but on this
input the pre-pass consumes the `h` definition inside `f`'s unclosed
parameter text, the line scan still re-anchors the cursor on `h`, and
the subsequent `return` line looks up a missing key — the Python code
raises `KeyError: 'h'`, modelled here by `none`. -/
theorem C10_parse_keyerror_input :
    parse_julia_content contentUnbalanced = none := by
  rfl

/-! ### Association-list lemmas -/

theorem dictModify_spec (k : String) (f : FuncInfo → FuncInfo) (d : Dict)
    (info : FuncInfo) (hget : dictGet? k d = some info) :
    ∃ d2, dictModify k f d = some d2 ∧
      keysOf d2 = keysOf d ∧
      (∀ n, dictGet? n d2 = if k = n then some (f info) else dictGet? n d) ∧
      (∀ p2 ∈ d2, p2 ∈ d ∨ ∃ p, p ∈ d ∧ p2 = (p.1, f p.2)) := by
  induction d with
  | nil => simp [dictGet?] at hget
  | cons hd tl ih =>
    obtain ⟨k2, v2⟩ := hd
    by_cases hk : k2 = k
    · subst hk
      have hv : v2 = info := by
        have h2 := hget
        simp only [dictGet?, if_pos rfl] at h2
        exact Option.some.inj h2
      subst hv
      refine ⟨(k2, f v2) :: tl, ?_, ?_, ?_, ?_⟩
      · simp [dictModify]
      · simp [keysOf]
      · intro n
        by_cases hn : k2 = n <;> simp [dictGet?, hn]
      · intro p2 hp2
        rcases List.mem_cons.mp hp2 with h | h
        · exact Or.inr ⟨(k2, v2), List.mem_cons_self _ _, h⟩
        · exact Or.inl (List.mem_cons_of_mem _ h)
    · simp only [dictGet?, if_neg hk] at hget
      obtain ⟨d2, hmod, hkeys, hgets, hmem⟩ := ih hget
      refine ⟨(k2, v2) :: d2, ?_, ?_, ?_, ?_⟩
      · simp [dictModify, hk, hmod]
      · simp [keysOf] at hkeys ⊢; exact hkeys
      · intro n
        by_cases hn : k2 = n
        · subst hn
          have hkn : ¬ k = k2 := fun h => hk h.symm
          simp [dictGet?, hkn]
        · simp only [dictGet?, if_neg hn]
          exact hgets n
      · intro p2 hp2
        rcases List.mem_cons.mp hp2 with h | h
        · exact Or.inl (h ▸ List.mem_cons_self _ _)
        · rcases hmem p2 h with h2 | ⟨p, hp, hpe⟩
          · exact Or.inl (List.mem_cons_of_mem _ h2)
          · exact Or.inr ⟨p, List.mem_cons_of_mem _ hp, hpe⟩

theorem dictMem_eq_contains (n : String) (d : Dict) :
    dictMem n d = (keysOf d).contains n := by
  induction d with
  | nil => rfl
  | cons hd tl ih =>
    obtain ⟨k2, v2⟩ := hd
    by_cases hk : k2 = n
    · subst hk
      simp [dictMem, dictGet?, keysOf, List.contains_cons]
    · have hbeq : (n == k2) = false := by
        simp [beq_iff_eq]; exact fun h => hk h.symm
      simp only [dictMem, dictGet?, if_neg hk, keysOf, List.map_cons,
        List.contains_cons, hbeq, Bool.false_or]
      exact ih

theorem dictMem_congr_keys {d d2 : Dict} (h : keysOf d2 = keysOf d) (n : String) :
    dictMem n d2 = dictMem n d := by
  rw [dictMem_eq_contains, dictMem_eq_contains, h]

theorem dictGet?_isSome_of_mem {d : Dict} {p : String × FuncInfo}
    (hp : p ∈ d) : (dictGet? p.1 d).isSome = true := by
  induction d with
  | nil => cases hp
  | cons hd tl ih =>
    obtain ⟨k2, v2⟩ := hd
    rcases List.mem_cons.mp hp with h | h
    · subst h; simp [dictGet?]
    · by_cases hk : k2 = p.1
      · simp [dictGet?, hk]
      · simp only [dictGet?, if_neg hk]
        exact ih h

theorem dictSet_mem {d : Dict} {k : String} {v : FuncInfo} :
    ∀ p ∈ dictSet k v d, p = (k, v) ∨ p ∈ d := by
  induction d with
  | nil =>
    intro p hp
    simp only [dictSet] at hp
    rcases List.mem_cons.mp hp with h | h
    · exact Or.inl h
    · cases h
  | cons hd tl ih =>
    obtain ⟨k2, v2⟩ := hd
    intro p hp
    by_cases hk : k2 = k
    · simp only [dictSet, if_pos hk] at hp
      rcases List.mem_cons.mp hp with h | h
      · exact Or.inl h
      · exact Or.inr (List.mem_cons_of_mem _ h)
    · simp only [dictSet, if_neg hk] at hp
      rcases List.mem_cons.mp hp with h | h
      · exact Or.inr (h ▸ List.mem_cons_self _ _)
      · rcases ih p h with h2 | h2
        · exact Or.inl h2
        · exact Or.inr (List.mem_cons_of_mem _ h2)

theorem mem_keys_dictSet {n k : String} {v : FuncInfo} {d : Dict}
    (h : n ∈ keysOf (dictSet k v d)) : n = k ∨ n ∈ keysOf d := by
  simp only [keysOf, List.mem_map] at h ⊢
  obtain ⟨p, hp, hpn⟩ := h
  rcases dictSet_mem p hp with h2 | h2
  · left; rw [← hpn, h2]
  · right; exact ⟨p, h2, hpn⟩

theorem dictSet_nodup {d : Dict} (h : (keysOf d).Nodup)
    (k : String) (v : FuncInfo) : (keysOf (dictSet k v d)).Nodup := by
  induction d with
  | nil => simp [dictSet, keysOf]
  | cons hd tl ih =>
    obtain ⟨k2, v2⟩ := hd
    simp only [keysOf, List.map_cons, List.nodup_cons] at h
    obtain ⟨hnot, htl⟩ := h
    by_cases hk : k2 = k
    · subst hk
      have hstep : dictSet k2 v ((k2, v2) :: tl) = (k2, v) :: tl := by
        simp [dictSet]
      rw [hstep]
      simp only [keysOf, List.map_cons, List.nodup_cons]
      exact ⟨hnot, htl⟩
    · have hstep : dictSet k v ((k2, v2) :: tl) = (k2, v2) :: dictSet k v tl := by
        simp [dictSet, hk]
      rw [hstep]
      simp only [keysOf, List.map_cons, List.nodup_cons]
      refine ⟨?_, ih htl⟩
      intro hmem
      rcases mem_keys_dictSet hmem with h2 | h2
      · exact hk h2
      · exact hnot (by simpa [keysOf] using h2)

theorem dictSet_get (d : Dict) (k n : String) (v : FuncInfo) :
    dictGet? n (dictSet k v d) = if k = n then some v else dictGet? n d := by
  induction d with
  | nil =>
    by_cases hk : k = n <;> simp [dictSet, dictGet?, hk]
  | cons hd tl ih =>
    obtain ⟨k2, v2⟩ := hd
    by_cases hk2 : k2 = k
    · subst hk2
      by_cases hn : k2 = n <;> simp [dictSet, dictGet?, hn]
    · simp only [dictSet, if_neg hk2]
      by_cases hn : k2 = n
      · subst hn
        have : ¬ k = k2 := fun h => hk2 h.symm
        simp [dictGet?, this]
      · simp only [dictGet?, if_neg hn]
        exact ih

/-! ### Effect of one scanned line on the current routine's record -/

/-- An optional in-place record update at key `n`. -/
def optionalModify (o : Option (FuncInfo → FuncInfo)) (n : String) (d : Dict) :
    Option Dict :=
  match o with
  | some f => dictModify n f d
  | none => some d

/-- Apply an optional record update to a record. -/
def applyOpt (o : Option (FuncInfo → FuncInfo)) (i : FuncInfo) : FuncInfo :=
  match o with
  | some f => f i
  | none => i

/-- The optional update performed by the call-detection step. -/
def callModOpt (line : List Char) (n : String) (d : Dict) :
    Option (FuncInfo → FuncInfo) :=
  match searchCall line with
  | some c => if dictMem c d && c != n then some (addCall c) else none
  | none => none

/-- The names the call-detection step appends on one line: the first
call candidate, kept only when it is a key of the table other than the
current routine. -/
def callContrib (line : List Char) (n : String) (d : Dict) : List String :=
  match searchCall line with
  | some c => if dictMem c d && c != n then [c] else []
  | none => []

theorem optionalModify_effect (o : Option (FuncInfo → FuncInfo)) (n : String)
    (d : Dict) (info : FuncInfo) (hget : dictGet? n d = some info) :
    ∃ d2, optionalModify o n d = some d2 ∧ keysOf d2 = keysOf d ∧
      dictGet? n d2 = some (applyOpt o info) := by
  cases o with
  | none => exact ⟨d, rfl, rfl, by simpa [applyOpt] using hget⟩
  | some f =>
    obtain ⟨d2, h1, h2, h3, _⟩ := dictModify_spec n f d info hget
    refine ⟨d2, h1, h2, ?_⟩
    show dictGet? n d2 = some (applyOpt (some f) info)
    rw [h3 n, if_pos rfl]
    rfl

theorem retStep_eq (line : List Char) (n : String) (d : Dict) :
    retStep line (some n) d =
      optionalModify
        (if "return".toList.isPrefixOf line then
          some (addOutput (stripChars (line.drop 6)).asString) else none) n d := by
  by_cases h : "return".toList.isPrefixOf line = true
  · simp only [retStep, optionalModify, if_pos h]
  · simp only [retStep, optionalModify, if_neg h]

theorem gdataStep_eq (line : List Char) (n : String) (d : Dict) :
    gdataStep line (some n) d =
      optionalModify ((searchGdata line).map addGdataField) n d := by
  cases h : searchGdata line <;> simp [gdataStep, optionalModify, h]

theorem varStep_eq (line : List Char) (n : String) (d : Dict) :
    varStep line (some n) d =
      optionalModify ((searchVar line).map addVariable) n d := by
  cases h : searchVar line <;> simp [varStep, optionalModify, h]

theorem callStep_eq (line : List Char) (n : String) (d : Dict) :
    callStep line (some n) d = optionalModify (callModOpt line n d) n d := by
  cases h : searchCall line
  · simp [callStep, callModOpt, optionalModify, h]
  · rename_i c
    by_cases hg : dictMem c d && c != n <;>
      simp [callStep, callModOpt, optionalModify, h, hg]

theorem applyOpt_ret (b : Bool) (v : String) (i : FuncInfo) :
    applyOpt (if b then some (addOutput v) else none) i =
      { i with outputs := i.outputs ++ (if b then [v] else []) } := by
  cases b <;> simp [applyOpt, addOutput]

theorem applyOpt_gdata (o : Option String) (i : FuncInfo) :
    applyOpt (o.map addGdataField) i =
      { i with gdata := i.gdata ++ o.toList } := by
  cases o <;> simp [applyOpt, addGdataField]

theorem applyOpt_var (o : Option String) (i : FuncInfo) :
    applyOpt (o.map addVariable) i =
      { i with vars := i.vars ++ o.toList } := by
  cases o <;> simp [applyOpt, addVariable]

theorem applyOpt_call (line : List Char) (n : String) (d : Dict) (i : FuncInfo) :
    applyOpt (callModOpt line n d) i =
      { i with calls := i.calls ++ callContrib line n d } := by
  cases h : searchCall line
  · simp [callModOpt, callContrib, applyOpt, h]
  · rename_i c
    by_cases hg : dictMem c d && c != n <;>
      simp [callModOpt, callContrib, applyOpt, addCall, h, hg]

/-- Master lemma: on a line that is not a definition line, with the
cursor on an existing key `n`, one scan step succeeds, keeps the key
sequence, keeps the cursor, and appends to the four detection fields
of `n`'s record exactly the contributions of the four patterns. -/
theorem scanLine_effect (d : Dict) (n : String) (info : FuncInfo)
    (rawLine : List Char)
    (hget : dictGet? n d = some info)
    (hnf : "function".toList.isPrefixOf (stripChars rawLine) = false) :
    ∃ d4, scanLine d (some n) rawLine = some (d4, some n) ∧
      keysOf d4 = keysOf d ∧
      dictGet? n d4 = some
        { inputs := info.inputs,
          outputs := info.outputs ++
            (if "return".toList.isPrefixOf (stripChars rawLine) then
              [(stripChars ((stripChars rawLine).drop 6)).asString] else []),
          vars := info.vars ++ (searchVar (stripChars rawLine)).toList,
          calls := info.calls ++ callContrib (stripChars rawLine) n d,
          gdata := info.gdata ++ (searchGdata (stripChars rawLine)).toList } := by
  have hcur : updateCursor (stripChars rawLine) (some n) = some n := by
    unfold updateCursor
    rw [hnf]
    simp
  obtain ⟨d1, e1, k1, g1⟩ :=
    optionalModify_effect
      (if "return".toList.isPrefixOf (stripChars rawLine) then
        some (addOutput (stripChars ((stripChars rawLine).drop 6)).asString)
      else none) n d info hget
  obtain ⟨d2, e2, k2, g2⟩ :=
    optionalModify_effect ((searchGdata (stripChars rawLine)).map addGdataField)
      n d1 _ g1
  obtain ⟨d3, e3, k3, g3⟩ :=
    optionalModify_effect ((searchVar (stripChars rawLine)).map addVariable)
      n d2 _ g2
  have hmemEq : ∀ c, dictMem c d3 = dictMem c d := fun c =>
    dictMem_congr_keys (k3.trans (k2.trans k1)) c
  have hcall3 : callStep (stripChars rawLine) (some n) d3 =
      optionalModify (callModOpt (stripChars rawLine) n d) n d3 := by
    rw [callStep_eq]
    have : callModOpt (stripChars rawLine) n d3 =
        callModOpt (stripChars rawLine) n d := by
      cases h : searchCall (stripChars rawLine) <;>
        simp [callModOpt, h, hmemEq]
    rw [this]
  obtain ⟨d4, e4, k4, g4⟩ :=
    optionalModify_effect (callModOpt (stripChars rawLine) n d) n d3 _ g3
  refine ⟨d4, ?_, ?_, ?_⟩
  · show scanLine d (some n) rawLine = some (d4, some n)
    rw [scanLine]
    rw [hcur, retStep_eq, e1]
    rw [Option.some_bind]
    rw [gdataStep_eq, e2, Option.some_bind]
    rw [varStep_eq, e3, Option.some_bind]
    rw [hcall3, e4, Option.map_some']
  · exact k4.trans (k3.trans (k2.trans k1))
  · rw [g4, applyOpt_call, applyOpt_var, applyOpt_gdata, applyOpt_ret]

/-- Small table used by the line-effect witnesses. -/
def dOneKey : Dict := [("f", emptyInfo ["x"])]

/-- Table with keys `f`, `g`, `h` used by the call-effect witness. -/
def dThreeKeys : Dict :=
  [("f", emptyInfo ["x"]), ("g", emptyInfo ["a"]), ("h", emptyInfo ["a"])]

/-- C3 (counterexample): on the scanned body line `  g(h(x))` of
routine `f`, the identifier `h` is immediately followed by `(`, names
another routine of the table and is not `f`, yet it is not recorded:
only the first candidate `g` of the line is. -/
theorem C3_first_candidate_only_counterexample :
    parse_julia_content contentNested =
      some [("f", ⟨["x"], [], [], ["g"], []⟩),
            ("g", ⟨["a"], [], [], [], []⟩),
            ("h", ⟨["a"], [], [], [], []⟩)] ∧
    isSubstrOf "h(".toList "  g(h(x))".toList = true ∧
    "h" ∉ (["g"] : List String) := by
  refine ⟨rfl, rfl, by decide⟩

/-- C3 (amended): on every scanned body line, only the first
identifier immediately followed by an opening parenthesis is
considered as a call candidate, and that candidate is recorded in the
current routine's calls if and only if it names a routine key of the
table and is not the current routine itself (`callContrib`). -/
theorem C3_call_recording_amended (d : Dict) (n : String) (info : FuncInfo)
    (rawLine : List Char)
    (hget : dictGet? n d = some info)
    (hnf : "function".toList.isPrefixOf (stripChars rawLine) = false) :
    (scanLine d (some n) rawLine).bind
        (fun st => (dictGet? n st.1).map FuncInfo.calls) =
      some (info.calls ++ callContrib (stripChars rawLine) n d) := by
  obtain ⟨d4, h1, h2, h3⟩ := scanLine_effect d n info rawLine hget hnf
  rw [h1, Option.some_bind, h3]
  rfl

/-- C3 witness: concrete line `  g(h(x))` scanned for routine `f`
over a table with keys `f`, `g`, `h` records exactly `g`. -/
theorem C3_call_recording_amended_witness :
    (scanLine dThreeKeys (some "f") "  g(h(x))".toList).bind
        (fun st => (dictGet? "f" st.1).map FuncInfo.calls) = some ["g"] :=
  (C3_call_recording_amended dThreeKeys "f" (emptyInfo ["x"])
    "  g(h(x))".toList rfl rfl).trans rfl

/-- C4 (counterexample): in the specification scenario text, the plain
assignment line `  y = g(x)` contributes nothing to `f`'s variables —
the variable pattern requires a colon after the identifier — so `f`'s
variables list is empty rather than containing `"y"`. -/
theorem C4_plain_assignment_counterexample :
    (parse_julia_content contentA).bind
        (fun d => (dictGet? "f" d).map FuncInfo.vars) = some [] ∧
    searchVar "y = g(x)".toList = none := by
  exact ⟨rfl, rfl⟩

/-- C4 (amended): on every scanned body line, the first identifier
that is followed (after optional whitespace) by a colon contributes
that identifier to the current routine's variables (`searchVar`); an
identifier without a following colon — such as the `y` of a plain
assignment `y = g(x)` — contributes nothing. -/
theorem C4_variable_recording_amended (d : Dict) (n : String) (info : FuncInfo)
    (rawLine : List Char)
    (hget : dictGet? n d = some info)
    (hnf : "function".toList.isPrefixOf (stripChars rawLine) = false) :
    (scanLine d (some n) rawLine).bind
        (fun st => (dictGet? n st.1).map FuncInfo.vars) =
      some (info.vars ++ (searchVar (stripChars rawLine)).toList) := by
  obtain ⟨d4, h1, h2, h3⟩ := scanLine_effect d n info rawLine hget hnf
  rw [h1, Option.some_bind, h3]
  rfl

/-- C4 witness: a plain assignment line contributes no variable, an
ascribed line `x::Int = 2` contributes `x`. -/
theorem C4_variable_recording_amended_witness :
    (scanLine dOneKey (some "f") "  y = g(x)".toList).bind
        (fun st => (dictGet? "f" st.1).map FuncInfo.vars) = some [] ∧
    (scanLine dOneKey (some "f") "  x::Int = 2".toList).bind
        (fun st => (dictGet? "f" st.1).map FuncInfo.vars) = some ["x"] :=
  ⟨(C4_variable_recording_amended dOneKey "f" (emptyInfo ["x"])
      "  y = g(x)".toList rfl rfl).trans rfl,
   (C4_variable_recording_amended dOneKey "f" (emptyInfo ["x"])
      "  x::Int = 2".toList rfl rfl).trans rfl⟩

/-- C7 (counterexample): two assignments to the same global-data field
both append: `gdata` holds the field name twice, so it does not behave
as a set. -/
theorem C7_gdata_duplicates_counterexample :
    (parse_julia_content contentGdataTwice).bind
        (fun d => (dictGet? "f" d).map FuncInfo.gdata) =
      some ["counter", "counter"] ∧
    List.count "counter" ["counter", "counter"] = 2 := by
  exact ⟨rfl, by decide⟩

/-- C7 (amended): `gdata` is an ordered list, not a set: every scanned
body line matching the global-data assignment pattern appends its
field name (`searchGdata`) to the current routine's `gdata`, keeping
duplicates. -/
theorem C7_gdata_append_amended (d : Dict) (n : String) (info : FuncInfo)
    (rawLine : List Char)
    (hget : dictGet? n d = some info)
    (hnf : "function".toList.isPrefixOf (stripChars rawLine) = false) :
    (scanLine d (some n) rawLine).bind
        (fun st => (dictGet? n st.1).map FuncInfo.gdata) =
      some (info.gdata ++ (searchGdata (stripChars rawLine)).toList) := by
  obtain ⟨d4, h1, h2, h3⟩ := scanLine_effect d n info rawLine hget hnf
  rw [h1, Option.some_bind, h3]
  rfl

/-- C7 witness: the specification scenario line
`gdata.counter = counter + 1` contributes the field `counter`. -/
theorem C7_gdata_append_amended_witness :
    (scanLine dOneKey (some "f") "  gdata.counter = counter + 1".toList).bind
        (fun st => (dictGet? "f" st.1).map FuncInfo.gdata) = some ["counter"] :=
  (C7_gdata_append_amended dOneKey "f" (emptyInfo ["x"])
    "  gdata.counter = counter + 1".toList rfl rfl).trans rfl

/-- C5 (counterexample): the origin file displayed for `helper` is
`b.jl`, the first file whose raw text contains the name `helper` alone
— even though `b.jl` does not contain `function helper` and the later
file `a.jl` does. -/
theorem C5_origin_file_counterexample :
    findOriginFile "helper" filesHelper = some "b.jl" ∧
    isSubstrOf "function helper".toList "x = helper(1)".toList = false ∧
    isSubstrOf "function helper".toList "function helper(a)\nend".toList = true := by
  exact ⟨rfl, rfl, rfl⟩

/-- C5 (amended): the origin file displayed for a routine is the first
file, in directory-enumeration order, whose raw text contains the
routine's name alone as a substring (not necessarily its definition);
ties resolve to enumeration order. -/
theorem C5_origin_file_amended (funcName : String)
    (filesData : List (String × String)) (i : Nat) (hi : i < filesData.length)
    (hat : isSubstrOf funcName.toList (filesData.get ⟨i, hi⟩).2.toList = true)
    (hfirst : ∀ j (hj : j < i),
      isSubstrOf funcName.toList
        (filesData.get ⟨j, Nat.lt_trans hj hi⟩).2.toList = false) :
    findOriginFile funcName filesData = some (filesData.get ⟨i, hi⟩).1 := by
  induction filesData generalizing i with
  | nil => cases hi
  | cons fd rest ih =>
    cases i with
    | zero =>
      simp only [List.get] at hat ⊢
      unfold findOriginFile
      have hf : List.find? (fun fd2 => isSubstrOf funcName.toList fd2.2.toList)
          (fd :: rest) = some fd := List.find?_cons_of_pos _ hat
      rw [hf]
      rfl
    | succ j =>
      have hhead : isSubstrOf funcName.toList fd.2.toList = false := by
        have h0 := hfirst 0 (Nat.succ_pos j)
        simpa using h0
      have hneg : ¬ (isSubstrOf funcName.toList fd.2.toList = true) := by
        rw [hhead]
        simp
      have hi2 : j < rest.length := Nat.lt_of_succ_lt_succ hi
      have hat2 : isSubstrOf funcName.toList (rest.get ⟨j, hi2⟩).2.toList = true := by
        simpa using hat
      have hfirst2 : ∀ m (hm : m < j),
          isSubstrOf funcName.toList
            (rest.get ⟨m, Nat.lt_trans hm hi2⟩).2.toList = false := by
        intro m hm
        have hn := hfirst (m + 1) (Nat.succ_lt_succ hm)
        simpa using hn
      have hrec := ih j hi2 hat2 hfirst2
      unfold findOriginFile at hrec ⊢
      have hf2 : List.find? (fun fd2 => isSubstrOf funcName.toList fd2.2.toList)
          (fd :: rest) =
          List.find? (fun fd2 => isSubstrOf funcName.toList fd2.2.toList) rest :=
        List.find?_cons_of_neg _ hneg
      rw [hf2]
      simpa using hrec

/-- C5 witness: with the two-file corpus `filesHelper`, index 0 is the
first file containing `helper`, and it is the one displayed. -/
theorem C5_origin_file_amended_witness :
    findOriginFile "helper" filesHelper = some "b.jl" :=
  C5_origin_file_amended "helper" filesHelper 0 (by decide) rfl
    (fun j hj => absurd hj (Nat.not_lt_zero j))

/-! ### Properties of the edge-emission loop -/

theorem addEdge_nodup {es : List (String × String)} (h : es.Nodup)
    (e : String × String) : (addEdge es e).Nodup := by
  by_cases he : e ∈ es
  · simpa [addEdge, he] using h
  · simp only [addEdge, if_neg he]
    rw [List.nodup_append]
    refine ⟨h, List.nodup_singleton e, ?_⟩
    intro a ha hae
    rw [List.mem_singleton] at hae
    exact he (hae ▸ ha)

theorem addEdge_mem_mono {es : List (String × String)} {e2 : String × String}
    (e : String × String) (h : e2 ∈ es) : e2 ∈ addEdge es e := by
  by_cases he : e ∈ es
  · simpa [addEdge, he] using h
  · simp only [addEdge, if_neg he]
    exact List.mem_append_left _ h

theorem addEdge_mem_self (es : List (String × String)) (e : String × String) :
    e ∈ addEdge es e := by
  by_cases he : e ∈ es
  · simp [addEdge, he]
  · simp only [addEdge, if_neg he]
    exact List.mem_append_right _ (List.mem_singleton_self e)

theorem addEdge_mem_src {es : List (String × String)} {e2 e : String × String}
    (h : e2 ∈ addEdge es e) : e2 ∈ es ∨ e2 = e := by
  by_cases he : e ∈ es
  · simp only [addEdge, if_pos he] at h
    exact Or.inl h
  · simp only [addEdge, if_neg he] at h
    rcases List.mem_append.mp h with h2 | h2
    · exact Or.inl h2
    · exact Or.inr (List.mem_singleton.mp h2)

theorem innerFold_nodup (nm : String) (calls : List String) :
    ∀ acc : List (String × String), acc.Nodup →
      (List.foldl (fun es2 c => addEdge es2 (nm, c)) acc calls).Nodup := by
  induction calls with
  | nil => intro acc h; exact h
  | cons c cs ih =>
    intro acc h
    exact ih _ (addEdge_nodup h (nm, c))

theorem innerFold_mono (nm : String) (calls : List String) :
    ∀ (acc : List (String × String)) (e : String × String), e ∈ acc →
      e ∈ List.foldl (fun es2 c => addEdge es2 (nm, c)) acc calls := by
  induction calls with
  | nil => intro acc e h; exact h
  | cons c cs ih =>
    intro acc e h
    exact ih _ e (addEdge_mem_mono _ h)

theorem innerFold_adds (nm : String) {c : String} {calls : List String}
    (hc : c ∈ calls) :
    ∀ acc : List (String × String),
      (nm, c) ∈ List.foldl (fun es2 c2 => addEdge es2 (nm, c2)) acc calls := by
  induction calls with
  | nil => cases hc
  | cons c2 cs ih =>
    intro acc
    rcases List.mem_cons.mp hc with h | h
    · subst h
      exact innerFold_mono nm cs _ _ (addEdge_mem_self acc (nm, c))
    · exact ih h _

theorem innerFold_src (nm : String) (calls : List String) :
    ∀ (acc : List (String × String)) (e : String × String),
      e ∈ List.foldl (fun es2 c => addEdge es2 (nm, c)) acc calls →
        e ∈ acc ∨ ∃ c ∈ calls, e = (nm, c) := by
  induction calls with
  | nil => intro acc e h; exact Or.inl h
  | cons c cs ih =>
    intro acc e h
    rcases ih _ e h with h2 | ⟨c2, hc2, he⟩
    · rcases addEdge_mem_src h2 with h3 | h3
      · exact Or.inl h3
      · exact Or.inr ⟨c, List.mem_cons_self _ _, h3⟩
    · exact Or.inr ⟨c2, List.mem_cons_of_mem _ hc2, he⟩

theorem outerFold_nodup (fns : Dict) :
    ∀ acc : List (String × String), acc.Nodup →
      (List.foldl
        (fun es nf => nf.2.calls.foldl (fun es2 c => addEdge es2 (nf.1, c)) es)
        acc fns).Nodup := by
  induction fns with
  | nil => intro acc h; exact h
  | cons nf rest ih =>
    intro acc h
    exact ih _ (innerFold_nodup nf.1 nf.2.calls acc h)

theorem outerFold_mono (fns : Dict) :
    ∀ (acc : List (String × String)) (e : String × String), e ∈ acc →
      e ∈ List.foldl
        (fun es nf => nf.2.calls.foldl (fun es2 c => addEdge es2 (nf.1, c)) es)
        acc fns := by
  induction fns with
  | nil => intro acc e h; exact h
  | cons nf rest ih =>
    intro acc e h
    exact ih _ e (innerFold_mono nf.1 nf.2.calls acc e h)

theorem outerFold_adds {p : String × FuncInfo} {fns : Dict} (hp : p ∈ fns)
    {c : String} (hc : c ∈ p.2.calls) :
    ∀ acc : List (String × String),
      (p.1, c) ∈ List.foldl
        (fun es nf => nf.2.calls.foldl (fun es2 c2 => addEdge es2 (nf.1, c2)) es)
        acc fns := by
  induction fns with
  | nil => cases hp
  | cons nf rest ih =>
    intro acc
    rcases List.mem_cons.mp hp with h | h
    · subst h
      exact outerFold_mono rest _ _ (innerFold_adds p.1 hc acc)
    · exact ih h _

theorem outerFold_src (fns : Dict) :
    ∀ (acc : List (String × String)) (e : String × String),
      e ∈ List.foldl
        (fun es nf => nf.2.calls.foldl (fun es2 c => addEdge es2 (nf.1, c)) es)
        acc fns →
      e ∈ acc ∨ ∃ p ∈ fns, e.1 = p.1 ∧ e.2 ∈ p.2.calls := by
  induction fns with
  | nil => intro acc e h; exact Or.inl h
  | cons nf rest ih =>
    intro acc e h
    rcases ih _ e h with h2 | ⟨p, hp, he1, he2⟩
    · rcases innerFold_src nf.1 nf.2.calls acc e h2 with h3 | ⟨c, hc, he⟩
      · exact Or.inl h3
      · exact Or.inr ⟨nf, List.mem_cons_self _ _, by rw [he], by rw [he]; exact hc⟩
    · exact Or.inr ⟨p, List.mem_cons_of_mem _ hp, he1, he2⟩

theorem buildEdges_nodup (fns : Dict) : (buildEdges fns).Nodup :=
  outerFold_nodup fns [] List.nodup_nil

theorem buildEdges_mem {fns : Dict} {p : String × FuncInfo} {c : String}
    (hp : p ∈ fns) (hc : c ∈ p.2.calls) : (p.1, c) ∈ buildEdges fns :=
  outerFold_adds hp hc []

theorem buildEdges_src {fns : Dict} {e : String × String}
    (he : e ∈ buildEdges fns) : ∃ p ∈ fns, e.1 = p.1 ∧ e.2 ∈ p.2.calls := by
  rcases outerFold_src fns [] e he with h | h
  · cases h
  · exact h

theorem count_eq_one_of_mem_nodup {α : Type} [BEq α] [LawfulBEq α]
    {l : List α} {a : α} (hn : l.Nodup) (ha : a ∈ l) : l.count a = 1 := by
  induction l with
  | nil => cases ha
  | cons b t ih =>
    rw [List.nodup_cons] at hn
    rw [List.count_cons]
    rcases List.mem_cons.mp ha with h | h
    · subst h
      have hz : t.count a = 0 := List.count_eq_zero.mpr hn.1
      simp [hz]
    · have hab : ¬ a = b := fun he => hn.1 (he ▸ h)
      have hb : (a == b) = false := beq_false_of_ne hab
      have hba : ¬ b = a := fun he => hab he.symm
      simp [hb, hba, ih hn.2 h]

/-- C2: for every routine entry `(R, info)` of a table with
`S ∈ info.calls`, the emitted edge sequence contains the directed edge
`(R, S)` exactly once, no matter how many times `S` occurs in the
calls list. -/
theorem C2_edge_emitted_exactly_once (fns : Dict) (R S : String)
    (info : FuncInfo) (hmem : (R, info) ∈ fns) (hcall : S ∈ info.calls) :
    List.count (R, S) (buildEdges fns) = 1 :=
  count_eq_one_of_mem_nodup (buildEdges_nodup fns) (buildEdges_mem hmem hcall)

/-- Table whose `f` entry lists the call `g` twice. -/
def fnsDupCalls : Dict :=
  [("f", ⟨[], [], [], ["g", "g"], []⟩), ("g", emptyInfo [])]

/-- C2 witness: with two occurrences of the call `g` in `f`'s calls
list, the edge `(f, g)` is emitted exactly once. -/
theorem C2_edge_emitted_exactly_once_witness :
    List.count ("f", "g") (buildEdges fnsDupCalls) = 1 :=
  C2_edge_emitted_exactly_once fnsDupCalls "f" "g" ⟨[], [], [], ["g", "g"], []⟩
    (by decide) (by decide)

/-! ### Invariants of the line scan -/

theorem dictModify_some_spec {n : String} {f : FuncInfo → FuncInfo} {d d2 : Dict}
    (h : dictModify n f d = some d2) :
    keysOf d2 = keysOf d ∧
    (∀ m, dictGet? m d2 = if n = m then (dictGet? m d).map f else dictGet? m d) ∧
    (∀ p2 ∈ d2, p2 ∈ d ∨ ∃ p, p ∈ d ∧ p2 = (p.1, f p.2)) := by
  induction d generalizing d2 with
  | nil => simp [dictModify] at h
  | cons hd tl ih =>
    obtain ⟨k2, v2⟩ := hd
    by_cases hk : k2 = n
    · subst hk
      simp only [dictModify, if_pos rfl] at h
      injection h with h2
      subst h2
      refine ⟨by simp [keysOf], ?_, ?_⟩
      · intro m
        by_cases hm : k2 = m
        · subst hm; simp [dictGet?]
        · simp [dictGet?, hm]
      · intro p2 hp2
        rcases List.mem_cons.mp hp2 with h2 | h2
        · exact Or.inr ⟨(k2, v2), List.mem_cons_self _ _, h2⟩
        · exact Or.inl (List.mem_cons_of_mem _ h2)
    · simp only [dictModify, if_neg hk] at h
      cases hmod : dictModify n f tl with
      | none => rw [hmod] at h; simp at h
      | some d3 =>
        rw [hmod] at h
        simp only [Option.map_some'] at h
        injection h with h2
        subst h2
        obtain ⟨hkeys, hgets, hments⟩ := ih hmod
        refine ⟨?_, ?_, ?_⟩
        · simp only [keysOf, List.map_cons] at hkeys ⊢
          rw [hkeys]
        · intro m
          by_cases hm : k2 = m
          · subst hm
            have hnm : ¬ n = k2 := fun he => hk he.symm
            simp [dictGet?, if_neg hnm]
          · simp only [dictGet?, if_neg hm]
            exact hgets m
        · intro p2 hp2
          rcases List.mem_cons.mp hp2 with h2 | h2
          · exact Or.inl (h2 ▸ List.mem_cons_self _ _)
          · rcases hments p2 h2 with h3 | ⟨p, hp, he⟩
            · exact Or.inl (List.mem_cons_of_mem _ h3)
            · exact Or.inr ⟨p, List.mem_cons_of_mem _ hp, he⟩

/-- The calls invariant: every name of every calls list is a key. -/
def CallsInv (d : Dict) : Prop :=
  ∀ p ∈ d, ∀ c ∈ p.2.calls, dictMem c d = true

/-- Relation between the table before and after one detection step:
keys are unchanged, every record's inputs are unchanged, and every
record's calls list is either unchanged or extended by one name that
was already a key. -/
def StepRel (d d2 : Dict) : Prop :=
  keysOf d2 = keysOf d ∧
  (∀ m, (dictGet? m d2).map FuncInfo.inputs =
    (dictGet? m d).map FuncInfo.inputs) ∧
  ∀ p2 ∈ d2, ∃ p, p ∈ d ∧
    (p2.2.calls = p.2.calls ∨
      ∃ c, p2.2.calls = p.2.calls ++ [c] ∧ dictMem c d = true)

theorem StepRel_refl (d : Dict) : StepRel d d :=
  ⟨rfl, fun _ => rfl, fun p2 hp2 => ⟨p2, hp2, Or.inl rfl⟩⟩

theorem StepRel_modify_preserve {n : String} {f : FuncInfo → FuncInfo}
    {d d2 : Dict} (h : dictModify n f d = some d2)
    (hcalls : ∀ i, (f i).calls = i.calls)
    (hinputs : ∀ i, (f i).inputs = i.inputs) : StepRel d d2 := by
  obtain ⟨hkeys, hgets, hments⟩ := dictModify_some_spec h
  refine ⟨hkeys, ?_, ?_⟩
  · intro m
    rw [hgets m]
    by_cases hm : n = m
    · rw [if_pos hm]
      cases dictGet? m d <;> simp [hinputs]
    · rw [if_neg hm]
  · intro p2 hp2
    rcases hments p2 hp2 with h2 | ⟨p, hp, he⟩
    · exact ⟨p2, h2, Or.inl rfl⟩
    · exact ⟨p, hp, Or.inl (by rw [he]; exact hcalls p.2)⟩

theorem StepRel_modify_addCall {n c : String} {d d2 : Dict}
    (h : dictModify n (addCall c) d = some d2)
    (hc : dictMem c d = true) : StepRel d d2 := by
  obtain ⟨hkeys, hgets, hments⟩ := dictModify_some_spec h
  refine ⟨hkeys, ?_, ?_⟩
  · intro m
    rw [hgets m]
    by_cases hm : n = m
    · rw [if_pos hm]
      cases dictGet? m d <;> simp [addCall]
    · rw [if_neg hm]
  · intro p2 hp2
    rcases hments p2 hp2 with h2 | ⟨p, hp, he⟩
    · exact ⟨p2, h2, Or.inl rfl⟩
    · exact ⟨p, hp, Or.inr ⟨c, by rw [he]; rfl, hc⟩⟩

theorem retStep_rel {line : List Char} {cur : Option String} {d d2 : Dict}
    (h : retStep line cur d = some d2) : StepRel d d2 := by
  unfold retStep at h
  by_cases hp : "return".toList.isPrefixOf line = true
  · rw [if_pos hp] at h
    cases cur with
    | none =>
      obtain rfl : d = d2 := Option.some.inj h
      exact StepRel_refl d
    | some n => exact StepRel_modify_preserve h (fun i => rfl) (fun i => rfl)
  · rw [if_neg hp] at h
    obtain rfl : d = d2 := Option.some.inj h
    exact StepRel_refl d

theorem gdataStep_rel {line : List Char} {cur : Option String} {d d2 : Dict}
    (h : gdataStep line cur d = some d2) : StepRel d d2 := by
  cases hsg : searchGdata line <;> cases cur <;>
    simp only [gdataStep, hsg] at h
  · exact (Option.some.inj h) ▸ StepRel_refl d
  · exact (Option.some.inj h) ▸ StepRel_refl d
  · exact (Option.some.inj h) ▸ StepRel_refl d
  · exact StepRel_modify_preserve h (fun i => rfl) (fun i => rfl)

theorem varStep_rel {line : List Char} {cur : Option String} {d d2 : Dict}
    (h : varStep line cur d = some d2) : StepRel d d2 := by
  cases hsv : searchVar line <;> cases cur <;>
    simp only [varStep, hsv] at h
  · exact (Option.some.inj h) ▸ StepRel_refl d
  · exact (Option.some.inj h) ▸ StepRel_refl d
  · exact (Option.some.inj h) ▸ StepRel_refl d
  · exact StepRel_modify_preserve h (fun i => rfl) (fun i => rfl)

theorem callStep_rel {line : List Char} {cur : Option String} {d d2 : Dict}
    (h : callStep line cur d = some d2) : StepRel d d2 := by
  cases hsc : searchCall line <;> cases cur <;>
    simp only [callStep, hsc] at h
  · exact (Option.some.inj h) ▸ StepRel_refl d
  · exact (Option.some.inj h) ▸ StepRel_refl d
  · exact (Option.some.inj h) ▸ StepRel_refl d
  · rename_i c n
    by_cases hg : (dictMem c d && c != n) = true
    · rw [if_pos hg] at h
      rw [Bool.and_eq_true] at hg
      exact StepRel_modify_addCall h hg.1
    · rw [if_neg hg] at h
      exact (Option.some.inj h) ▸ StepRel_refl d

theorem CallsInv_of_step {d d2 : Dict} (hrel : StepRel d d2)
    (hinv : CallsInv d) : CallsInv d2 := by
  intro p2 hp2 c hc
  obtain ⟨hkeys, _, hments⟩ := hrel
  obtain ⟨p, hp, hcalls⟩ := hments p2 hp2
  have hd : dictMem c d = true := by
    rcases hcalls with he | ⟨c2, he, hc2⟩
    · exact hinv p hp c (he ▸ hc)
    · rw [he] at hc
      rcases List.mem_append.mp hc with h2 | h2
      · exact hinv p hp c h2
      · rw [List.mem_singleton.mp h2]
        exact hc2
  rw [dictMem_congr_keys hkeys]
  exact hd

theorem scanLine_spec {d : Dict} {cur : Option String} {rawLine : List Char}
    {d2 : Dict} {cur2 : Option String}
    (h : scanLine d cur rawLine = some (d2, cur2)) :
    keysOf d2 = keysOf d ∧
    (∀ m, (dictGet? m d2).map FuncInfo.inputs =
      (dictGet? m d).map FuncInfo.inputs) ∧
    (CallsInv d → CallsInv d2) := by
  rw [scanLine] at h
  cases hret : retStep (stripChars rawLine)
      (updateCursor (stripChars rawLine) cur) d with
  | none => rw [hret] at h; exact absurd h (by simp)
  | some e1 =>
    rw [hret, Option.some_bind] at h
    cases hgd : gdataStep (stripChars rawLine)
        (updateCursor (stripChars rawLine) cur) e1 with
    | none => rw [hgd] at h; exact absurd h (by simp)
    | some e2 =>
      rw [hgd, Option.some_bind] at h
      cases hvar : varStep (stripChars rawLine)
          (updateCursor (stripChars rawLine) cur) e2 with
      | none => rw [hvar] at h; exact absurd h (by simp)
      | some e3 =>
        rw [hvar, Option.some_bind] at h
        cases hcall : callStep (stripChars rawLine)
            (updateCursor (stripChars rawLine) cur) e3 with
        | none => rw [hcall] at h; exact absurd h (by simp)
        | some e4 =>
          rw [hcall, Option.map_some'] at h
          injection h with h2
          have hd4 : e4 = d2 := congrArg Prod.fst h2
          subst hd4
          obtain ⟨k1, i1, v1⟩ := retStep_rel hret
          obtain ⟨k2, i2, v2⟩ := gdataStep_rel hgd
          obtain ⟨k3, i3, v3⟩ := varStep_rel hvar
          obtain ⟨k4, i4, v4⟩ := callStep_rel hcall
          refine ⟨k4.trans (k3.trans (k2.trans k1)),
            fun m => (i4 m).trans ((i3 m).trans ((i2 m).trans (i1 m))), ?_⟩
          intro hinv
          exact CallsInv_of_step ⟨k4, i4, v4⟩
            (CallsInv_of_step ⟨k3, i3, v3⟩
              (CallsInv_of_step ⟨k2, i2, v2⟩
                (CallsInv_of_step ⟨k1, i1, v1⟩ hinv)))

theorem scanLines_spec :
    ∀ (ls : List (List Char)) (d : Dict) (cur : Option String) (d2 : Dict),
      scanLines d cur ls = some d2 →
      keysOf d2 = keysOf d ∧
      (∀ m, (dictGet? m d2).map FuncInfo.inputs =
        (dictGet? m d).map FuncInfo.inputs) ∧
      (CallsInv d → CallsInv d2) := by
  intro ls
  induction ls with
  | nil =>
    intro d cur d2 h
    obtain rfl : d = d2 := Option.some.inj h
    exact ⟨rfl, fun _ => rfl, id⟩
  | cons l ls ih =>
    intro d cur d2 h
    rw [scanLines] at h
    cases hsl : scanLine d cur l with
    | none => rw [hsl] at h; exact absurd h (by simp)
    | some st =>
      obtain ⟨d1, cur1⟩ := st
      rw [hsl, Option.some_bind] at h
      obtain ⟨k1, i1, v1⟩ := scanLine_spec hsl
      obtain ⟨k2, i2, v2⟩ := ih d1 cur1 d2 h
      exact ⟨k2.trans k1, fun m => (i2 m).trans (i1 m),
        fun hinv => v2 (v1 hinv)⟩

/-! ### Properties of the definition pre-pass -/

theorem prePass_calls_nil :
    ∀ (ms : List (String × String)) (acc : Dict × Option String),
      (∀ p ∈ acc.1, p.2.calls = []) →
      ∀ p ∈ (List.foldl prePassStep acc ms).1, p.2.calls = [] := by
  intro ms
  induction ms with
  | nil => intro acc h; exact h
  | cons m ms ih =>
    intro acc h
    rw [List.foldl_cons]
    apply ih
    intro p hp
    rcases dictSet_mem p hp with h2 | h2
    · subst h2; rfl
    · exact h p h2

theorem prePass_nodup :
    ∀ (ms : List (String × String)) (acc : Dict × Option String),
      (keysOf acc.1).Nodup →
      (keysOf (List.foldl prePassStep acc ms).1).Nodup := by
  intro ms
  induction ms with
  | nil => intro acc h; exact h
  | cons m ms ih =>
    intro acc h
    rw [List.foldl_cons]
    exact ih _ (dictSet_nodup h _ _)

/-- The parameter text of the last pre-pass match carrying a given
routine name, if any. -/
def lastParamsFor (n : String) : List (String × String) → Option String
  | [] => none
  | m :: ms =>
    match lastParamsFor n ms with
    | some p => some p
    | none => if m.1 = n then some m.2 else none

theorem prePass_get (n : String) :
    ∀ (ms : List (String × String)) (acc : Dict × Option String),
      dictGet? n (List.foldl prePassStep acc ms).1 =
        match lastParamsFor n ms with
        | some p => some (emptyInfo (splitParams p.toList))
        | none => dictGet? n acc.1 := by
  intro ms
  induction ms with
  | nil => intro acc; rfl
  | cons m ms ih =>
    intro acc
    rw [List.foldl_cons, ih]
    cases hl : lastParamsFor n ms with
    | some p => simp [lastParamsFor, hl]
    | none =>
      simp only [lastParamsFor, hl]
      show dictGet? n (dictSet m.1 (emptyInfo (splitParams m.2.toList)) acc.1) = _
      rw [dictSet_get]
      by_cases hm : m.1 = n
      · simp [hm]
      · simp [hm]

theorem prePassFold_cursor :
    ∀ (ms : List (String × String)) (acc : Dict × Option String),
      (List.foldl prePassStep acc ms).2 =
        match ms.getLast? with
        | some m => some m.1
        | none => acc.2 := by
  intro ms
  induction ms with
  | nil => intro acc; rfl
  | cons m ms ih =>
    intro acc
    rw [List.foldl_cons, ih]
    cases ms with
    | nil => rfl
    | cons m2 ms2 =>
      rw [List.getLast?_cons_cons]
      cases hg2 : (m2 :: ms2).getLast? with
      | none => exact absurd (List.getLast?_eq_none_iff.mp hg2) (by simp)
      | some mm => rfl

/-! ### Remaining claim theorems -/

/-- C6: in every table produced by a successful parse, every name of
every calls list is a key of the table, and every emitted edge points
at a key of the table — a call to an unknown name is silently left out
of both. -/
theorem C6_calls_are_known_keys (content : String) (d : Dict)
    (hparse : parse_julia_content content = some d) :
    (∀ p ∈ d, ∀ c ∈ p.2.calls, dictMem c d = true) ∧
    (∀ e ∈ buildEdges d, dictMem e.2 d = true) := by
  unfold parse_julia_content at hparse
  obtain ⟨hkeys, hinputs, hinv⟩ := scanLines_spec _ _ _ _ hparse
  have hinv0 : CallsInv (prePassFold (finditerDef content.toList)).1 := by
    intro p hp c hc
    have hnil := prePass_calls_nil (finditerDef content.toList) ([], none)
      (by intro p2 hp2; cases hp2) p hp
    rw [hnil] at hc
    cases hc
  have hd : CallsInv d := hinv hinv0
  refine ⟨hd, ?_⟩
  intro e he
  obtain ⟨p, hp, he1, he2⟩ := buildEdges_src he
  exact hd p hp e.2 he2

/-- The table extracted from `contentUnknownCall`: the `unknown`
invocation appears in no calls list, without an error. -/
def dUnknown : Dict :=
  [("f", ⟨["x"], [], [], ["g"], []⟩), ("g", ⟨["z"], [], [], [], []⟩)]

/-- C6 witness: the corpus with a call to the undefined `unknown`
parses without error, omits it, and the one recorded call `g` is a
table key. -/
theorem C6_calls_are_known_keys_witness :
    parse_julia_content contentUnknownCall = some dUnknown ∧
    dictMem "g" dUnknown = true :=
  ⟨rfl, (C6_calls_are_known_keys contentUnknownCall dUnknown rfl).1
    ("f", ⟨["x"], [], [], ["g"], []⟩) (by decide) "g" (by decide)⟩

/-- C8: for every routine of a successfully parsed corpus, the key
sequence of the table has no duplicates (one record per name), and the
surviving record's parameter list is the one of the last definition
with that name found by the pre-pass — later definitions overwrite
earlier ones. -/
theorem C8_last_definition_wins (content : String) (d : Dict) (n : String)
    (info : FuncInfo) (ps : String)
    (hparse : parse_julia_content content = some d)
    (hget : dictGet? n d = some info)
    (hlast : lastParamsFor n (finditerDef content.toList) = some ps) :
    (keysOf d).Nodup ∧ info.inputs = splitParams ps.toList := by
  unfold parse_julia_content at hparse
  obtain ⟨hkeys, hinputs, _⟩ := scanLines_spec _ _ _ _ hparse
  constructor
  · rw [hkeys]
    exact prePass_nodup (finditerDef content.toList) ([], none)
      (by simp [keysOf])
  · have h1 := hinputs n
    rw [hget] at h1
    have h2 : dictGet? n (prePassFold (finditerDef content.toList)).1 =
        some (emptyInfo (splitParams ps.toList)) := by
      unfold prePassFold
      rw [prePass_get]
      rw [hlast]
    rw [h2] at h1
    exact Option.some.inj h1

/-- The single surviving record for the duplicated `helper`. -/
def dHelper : Dict := [("helper", ⟨["b", "c"], [], [], [], []⟩)]

/-- C8 witness: with two `helper` definitions, the corpus keeps one
record and its inputs come from the second definition `helper(b, c)`. -/
theorem C8_last_definition_wins_witness :
    (keysOf dHelper).Nodup ∧
    (⟨["b", "c"], [], [], [], []⟩ : FuncInfo).inputs =
      splitParams "b, c".toList :=
  C8_last_definition_wins contentHelperTwice dHelper "helper"
    ⟨["b", "c"], [], [], [], []⟩ "b, c" rfl rfl rfl

/-- C9: the cursor produced by the definition pre-pass is the name of
the last match anywhere in the text, the corpus is the newline-join of
the files' contents, and in the joined corpus `filesStray` the stray
`return 42` line sitting above every definition is attributed to the
last-defined routine `g`, not to `f` and not to no routine. -/
theorem C9_initial_cursor_last_definition :
    (∀ ms : List (String × String),
      (prePassFold ms).2 = (ms.getLast?).map Prod.fst) ∧
    combinedContent filesStray =
      "# nota\nreturn 42\nfunction f(x)\nend\nfunction g(z)\nend" ∧
    parse_julia_content (combinedContent filesStray) =
      some [("f", ⟨["x"], [], [], [], []⟩),
            ("g", ⟨["z"], ["42"], [], [], []⟩)] := by
  refine ⟨?_, rfl, rfl⟩
  intro ms
  unfold prePassFold
  rw [prePassFold_cursor]
  cases hg : ms.getLast? <;> rfl

/-- C9 witness: with two pre-pass matches the cursor starts on the
second one. -/
theorem C9_initial_cursor_last_definition_witness :
    (prePassFold [("f", "x"), ("g", "z")]).2 = some "g" :=
  (C9_initial_cursor_last_definition.1 [("f", "x"), ("g", "z")]).trans rfl
